import Mathlib

/-!
Verification of the Indeed-jobs scraping client (`indeed_scraper.py`).

The Python source is shallowly embedded: strings are `List Char`, the remote
HTTP API is a sequence of abstract responses, dictionaries are association
lists, and fallible code returns `Except`/`Option`.  Every definition below is
translated from the source file; the few places where behaviour of the Python
standard library is modelled (rather than code of the repository itself) are
called out in doc comments, together with the exact scope of the model.
-/

/-! ## Model of `urllib.parse` as used by `normalize_job_url` (lines 40-51)

`normalize_job_url` uses `urlparse(url).query` and `parse_qs`.  We model:

* query extraction: the fragment is the part after the first `'#'`; the query
  is the part after the first `'?'` of what remains (CPython `urlsplit`; the
  scheme/netloc handling cannot move the first `'?'` or `'#'`).
* `parse_qs` with its defaults: pairs are split on `'&'`, a pair without `'='`
  is dropped, a pair with an empty value is dropped
  (`keep_blank_values=False`), `'+'` becomes a space in names and values.

Percent-decoding (`unquote`) and the WHATWG stripping of control characters
are NOT modelled: the model is exact for URLs that contain no `'%'` and no
control characters, and every general theorem below that needs it carries an
explicit no-`'%'` hypothesis. -/

/-- Python `s.split(sep, 1)` on character lists: the part before the first
occurrence of `sep`, and — when `sep` occurs — the part after it. -/
def breakAtChar (sep : Char) : List Char → List Char × Option (List Char)
  | [] => ([], none)
  | c :: rest =>
    if c = sep then ([], some rest)
    else
      let p := breakAtChar sep rest
      (c :: p.1, p.2)

/-- Python `s.split(sep)` on character lists (full split; `"".split(sep)`
gives one empty piece). -/
def splitAllChar (sep : Char) : List Char → List (List Char)
  | [] => [[]]
  | c :: rest =>
    match splitAllChar sep rest with
    | [] => [[]]
    | h :: t => if c = sep then [] :: h :: t else (c :: h) :: t

/-- The `'+'`-to-space replacement `parse_qsl` applies to names and values. -/
def plusToSpace (l : List Char) : List Char :=
  l.map fun c => if c = '+' then ' ' else c

/-- Model of `urllib.parse.parse_qsl` with default arguments (no
percent-decoding, see the section comment): split the query on `'&'`, drop
pieces without `'='` and pieces whose value is empty, replace `'+'` with a
space in names and values. -/
def parse_qsl (qs : List Char) : List (List Char × List Char) :=
  (splitAllChar '&' qs).filterMap fun piece =>
    match breakAtChar '=' piece with
    | (_, none) => none
    | (name, some v) =>
      if v = [] then none else some (plusToSpace name, plusToSpace v)

/-- The raw `name=value` pairs of a query string, before `parse_qsl` drops
empty values and rewrites `'+'`.  Used to state claims about query strings
that contain empty-valued parameters. -/
def rawPairs (qs : List Char) : List (List Char × List Char) :=
  (splitAllChar '&' qs).filterMap fun piece =>
    match breakAtChar '=' piece with
    | (_, none) => none
    | (name, some v) => some (name, v)

/-- `(qs.get(key) or [None])[0]` of the grouped `parse_qs` dictionary: the
value of the first pair carrying `key`. -/
def firstValue (key : List Char) : List (List Char × List Char) → Option (List Char)
  | [] => none
  | (n, v) :: rest => if n = key then some v else firstValue key rest

/-- The value of the first pair carrying `key` whose value is non-empty. -/
def firstNEValue (key : List Char) : List (List Char × List Char) → Option (List Char)
  | [] => none
  | (n, v) :: rest =>
    if n = key then (if v = [] then firstNEValue key rest else some v)
    else firstNEValue key rest

/-- `urlparse(url).query`: the part after the first `'?'` of the part before
the first `'#'`. -/
def getQuery (url : List Char) : List Char :=
  match breakAtChar '?' (breakAtChar '#' url).1 with
  | (_, some q) => q
  | (_, none) => []

/-- Python `a or b` applied to the two optional job-id values, where a missing
key gives `None` and an empty string is falsy (line 44 of the source). -/
def pyOrOpt : Option (List Char) → Option (List Char) → Option (List Char)
  | some (c :: cs), _ => some (c :: cs)
  | _, b => b

/-- Python `pat in s` for strings: `pat` occurs as a contiguous substring. -/
def isSubstring (pat : List Char) : List Char → Bool
  | [] => pat.isPrefixOf []
  | c :: rest => pat.isPrefixOf (c :: rest) || isSubstring pat rest

/-- Python `s.replace(old, new, 1)`: replace the leftmost occurrence of `old`
(assumed non-empty here) by `new`. -/
def replaceFirst (old new : List Char) : List Char → List Char
  | [] => []
  | c :: rest =>
    if old.isPrefixOf (c :: rest) then new ++ (c :: rest).drop old.length
    else c :: replaceFirst old new rest

def jkKey : List Char := ['j', 'k']

def vjkKey : List Char := ['v', 'j', 'k']

/-- `"https://www.indeed.com/viewjob?jk="`, the canonical base of line 46. -/
def canonBase : List Char := "https://www.indeed.com/viewjob?jk=".toList

/-- `"/m/viewjob"`, the mobile path segment of line 47. -/
def mSeg : List Char := "/m/viewjob".toList

/-- `"/viewjob"`, the desktop replacement of line 48. -/
def vSeg : List Char := "/viewjob".toList

/-- The mobile-path fallback of lines 47-48 and the final `return url`. -/
def normTail (url : List Char) : List Char :=
  if isSubstring mSeg url then replaceFirst mSeg vSeg url else url

/-- `normalize_job_url` (source lines 40-51).  `jk` is the first `jk` value,
falling back to the first `vjk` value under Python truthiness; when truthy the
canonical URL is rebuilt from it, otherwise the mobile path segment is
rewritten, otherwise the URL is returned unchanged.  The `try/except` cannot
fire in the model (parsing is total). -/
def normalize_job_url (url : List Char) : List Char :=
  let qs := parse_qsl (getQuery url)
  match pyOrOpt (firstValue jkKey qs) (firstValue vjkKey qs) with
  | some (c :: cs) => canonBase ++ (c :: cs)
  | some [] => normTail url
  | none => normTail url

/-! ## Model of `fetch_job_listings` (source lines 53-108)

The remote listing endpoint is abstracted as a list of responses, the k-th
element answering the k-th request the loop issues (so the offsets the loop
sends are recorded separately).  `Resp.transportError` covers a timeout, any
other transport exception, and a non-200 status — all of which `break` with
what has been collected.  `Resp.body jobs` is a 200 response whose parsed
body yields the `jobs` array; each item's `url` field is an optional string
(`none` for a missing/null field; the code also skips a present-but-empty
string via `if not u`).  When the response list is exhausted the trace simply
ends and the accumulator is returned (any finite run of the loop is covered
by a long enough response list).  Logging and `time.sleep` are omitted;
`api_key`, `job_title`, `location` and `domain` only affect the request URL
string and are omitted from the model. -/

/-- One answer of the listing endpoint. -/
inductive Resp where
  | transportError : Resp
  | body : List (Option (List Char)) → Resp
deriving DecidableEq

/-- The inner loop of lines 85-92: walk the page's items, skip items whose
`url` is missing or empty, append unseen URLs.  Returns `new_urls` and the
updated `seen` set (modelled as a list used only through membership). -/
def dedupStep : List (Option (List Char)) → List (List Char) →
    List (List Char) × List (List Char)
  | [], seen => ([], seen)
  | none :: rest, seen => dedupStep rest seen
  | some [] :: rest, seen => dedupStep rest seen
  | some (c :: cs) :: rest, seen =>
    if (c :: cs) ∈ seen then dedupStep rest seen
    else
      let p := dedupStep rest ((c :: cs) :: seen)
      ((c :: cs) :: p.1, p.2)

/-- The `while True` loop of lines 60-105.  Arguments: pending responses,
`start`, `seen`, `collected`, and the list of `start` offsets already sent
(one per issued request).  Returns the final `collected` and the offsets. -/
def fetchGo (limit : Option Nat) :
    List Resp → Nat → List (List Char) → List (List Char) → List Nat →
    List (List Char) × List Nat
  | [], _, _, collected, reqs => (collected, reqs)
  | .transportError :: _, start, _, collected, reqs => (collected, reqs ++ [start])
  | .body jobs :: rest, start, seen, collected, reqs =>
    match jobs with
    | [] => (collected, reqs ++ [start])
    | j :: js =>
      let p := dedupStep (j :: js) seen
      let collected' := collected ++ p.1
      match limit with
      | some n =>
        if n ≤ collected'.length then (collected'.take n, reqs ++ [start])
        else fetchGo limit rest (start + (j :: js).length) p.2 collected' (reqs ++ [start])
      | none => fetchGo limit rest (start + (j :: js).length) p.2 collected' (reqs ++ [start])

/-- `fetch_job_listings`: run the loop from `start = 0` with empty
accumulators.  First component: the returned unique URL list; second
component: the `start` offsets of the issued requests, in order. -/
def fetch_job_listings (resps : List Resp) (limit : Option Nat) :
    List (List Char) × List Nat :=
  fetchGo limit resps 0 [] [] []

/-- The URLs present (and non-empty) in one page's `jobs` array, in order. -/
def presentUrls (jobs : List (Option (List Char))) : List (List Char) :=
  jobs.filterMap fun u =>
    match u with
    | some (c :: cs) => some (c :: cs)
    | _ => none

/-- All raw URLs the response sequence could ever deliver, in page order. -/
def allUrls (resps : List Resp) : List (List Char) :=
  (resps.map fun r =>
    match r with
    | .body jobs => presentUrls jobs
    | .transportError => []).flatten

/-- Keep-first deduplication of a URL stream against a `seen` set. -/
def dedupAll : List (List Char) → List (List Char) → List (List Char)
  | [], _ => []
  | u :: rest, seen =>
    if u ∈ seen then dedupAll rest seen else u :: dedupAll rest (u :: seen)

/-- The number of raw items a response contributes to the pagination cursor
(`start += len(jobs)`, line 102). -/
def rawLen : Resp → Nat
  | .transportError => 0
  | .body jobs => jobs.length

/-! ## Model of `get_user_input` (source lines 23-38)

The `limit` argument can be Python `None`, a value `int()` converts (the
converted integer is what matters), or a value `int()` rejects.  Errors are
the `ValueError`s the code raises, as `Except.error` with the message. -/

/-- The three relevant shapes of the `limit` argument. -/
inductive LimitArg where
  | noLimit : LimitArg
  | intLike : Int → LimitArg
  | notIntLike : LimitArg
deriving DecidableEq

/-- The integer-or-None result a valid `limit` turns into. -/
def limitAsOption : LimitArg → Option Int
  | .noLimit => none
  | .intLike n => some n
  | .notIntLike => none

/-- Python `str.isspace` characters, restricted to ASCII (the model's scope;
Unicode space classes are not modelled). -/
def pyIsSpace (c : Char) : Bool :=
  c = ' ' ∨ c = '\t' ∨ c = '\n' ∨ c = '\x0d' ∨ c = '\x0b' ∨ c = '\x0c'

/-- Python `s.strip()`: drop whitespace from both ends. -/
def pyStrip (l : List Char) : List Char :=
  ((l.dropWhile pyIsSpace).reverse.dropWhile pyIsSpace).reverse

/-- `get_user_input` (lines 23-38): trim both strings, reject empty results,
then validate the limit.  A `None` job title or location enters as the empty
string (`job_title or ""`). -/
def get_user_input (job_title location : List Char) (limit : LimitArg) :
    Except (List Char) (List Char × List Char × Option Int) :=
  let jt := pyStrip job_title
  let loc := pyStrip location
  if jt = [] then .error "job_title is required and cannot be empty.".toList
  else if loc = [] then .error "location is required and cannot be empty.".toList
  else
    match limit with
    | .noLimit => .ok (jt, loc, none)
    | .notIntLike => .error "limit must be an integer (or None).".toList
    | .intLike n =>
      if n < 1 then .error "limit must be >= 1 when provided.".toList
      else .ok (jt, loc, some n)

/-! ## Model of the extraction in `fetch_job_details` (source lines 125-150)

The parsed JSON body is an association list of string keys and `JVal`s.  The
model covers responses whose `job` field, when present, is a JSON object
(for other shapes the original either raises `TypeError` inside `pick` or
engages Python string-containment semantics, and never returns a record, so
the claims about returned records are unaffected).  The network part of
`fetch_job_details` returns `None` on any failure and otherwise hands the
parsed body to this extraction; the normalized URL and the original URL are
passed through unchanged. -/

/-- A JSON value, as far as the extraction logic observes it. -/
inductive JVal where
  | nullv : JVal
  | str : List Char → JVal
  | obj : List (List Char × JVal) → JVal

/-- Python truthiness of the `JVal`s above: `None`, `""` and `{}` are falsy. -/
def truthyJ : JVal → Bool
  | .nullv => false
  | .str s => !s.isEmpty
  | .obj fs => !fs.isEmpty

/-- Dictionary lookup (`k in d` / `d[k]`); JSON objects have unique keys. -/
def dlookup (fs : List (List Char × JVal)) (k : List Char) : Option JVal :=
  match fs with
  | [] => none
  | (n, v) :: rest => if n = k then some v else dlookup rest k

/-- The inner helper `pick(d, *keys, default="")` of lines 127-131: the first
key present with a truthy value wins; otherwise the empty string. -/
def pick (fs : List (List Char × JVal)) : List (List Char) → JVal
  | [] => .str []
  | k :: rest =>
    match dlookup fs k with
    | some v => if truthyJ v then v else pick fs rest
    | none => pick fs rest

/-- Python `a or b` on `JVal`s. -/
def pyOrJ (a b : JVal) : JVal :=
  if truthyJ a then a else b

/-- The record the detail fetcher returns (lines 143-150).  The four data
fields hold whatever JSON value won the fallback search (the code does not
force them to strings), defaulting to the empty string. -/
structure JobDetail where
  title : JVal
  company : JVal
  location : JVal
  description : JVal
  url : List Char
  source_url : List Char

def jobKey : List Char := "job".toList

/-- The field extraction of lines 133-150: `candidates = [data, data.get("job", {})]`,
per-field ordered fallback keys searched top-level first, `or ""` defaults. -/
def fetch_job_details_extract (data : List (List Char × JVal))
    (norm source : List Char) : JobDetail :=
  let c0 := data
  let c1 := match dlookup data jobKey with
    | some (.obj fs) => fs
    | _ => []
  let title := pyOrJ (pick c0 ["title".toList]) (pick c1 ["title".toList, "jobTitle".toList])
  let company := pyOrJ (pick c0 ["company".toList])
    (pick c1 ["company".toList, "companyName".toList, "company_name".toList])
  let location := pyOrJ (pick c0 ["location".toList])
    (pick c1 ["location".toList, "jobLocation".toList])
  let description := pyOrJ
    (pick c0 ["description".toList, "jobDescription".toList, "full_description".toList])
    (pick c1 ["description".toList, "jobDescription".toList, "full_description".toList])
  { title := pyOrJ title (.str [])
    company := pyOrJ company (.str [])
    location := pyOrJ location (.str [])
    description := pyOrJ description (.str [])
    url := norm
    source_url := source }

/-! ## Model of `save_jobs_to_json` (source lines 152-179)

The wall clock is external: the two timestamps (`strftime("%Y%m%d_%H%M%S")`
for the filename, `isoformat()` for the metadata) enter as parameters.  The
envelope is the nested dictionary of lines 160-170, flattened into a
structure (`metadata.*` and `data.job`); file I/O is outside the model. -/

/-- Python `s.replace(a, b)` for single characters. -/
def pyReplaceChar (a b : Char) (l : List Char) : List Char :=
  l.map fun c => if c = a then b else c

/-- Python `s.replace(a, "")` for a single character: remove every `a`. -/
def pyRemoveChar (a : Char) (l : List Char) : List Char :=
  l.filter fun c => ¬ c = a

/-- `job_title_clean` (line 156): spaces and slashes become underscores. -/
def job_title_clean (jt : List Char) : List Char :=
  pyReplaceChar '/' '_' (pyReplaceChar ' ' '_' jt)

/-- `location_clean` (line 157): spaces become underscores, commas are
removed, slashes become underscores. -/
def location_clean (loc : List Char) : List Char :=
  pyReplaceChar '/' '_' (pyRemoveChar ',' (pyReplaceChar ' ' '_' loc))

/-- The output path of line 158, with the formatted timestamp as input. -/
def save_filename (jt loc ts : List Char) : List Char :=
  "data/indeed_jobs_".toList ++ job_title_clean jt ++ ['_'] ++ location_clean loc ++
    ['_'] ++ ts ++ ".json".toList

/-- The spec's sanitization, modelled from its words for comparison: "spaces →
underscores; path-separator and comma characters stripped". -/
def spec_sanitize (s : List Char) : List Char :=
  (pyReplaceChar ' ' '_' s).filter fun c => ¬ (c = '/' ∨ c = ',')

/-- The spec's filename, modelled from its words for comparison with
`save_filename`. -/
def spec_filename (jt loc ts : List Char) : List Char :=
  "data/indeed_jobs_".toList ++ spec_sanitize jt ++ ['_'] ++ spec_sanitize loc ++
    ['_'] ++ ts ++ ".json".toList

/-- The serialized envelope of lines 160-170, flattened: `metadata.search_job_title`,
`metadata.search_location`, `metadata.timestamp`, `metadata.total_jobs`, `data.job`.
Generic in the record type, as `json.dump` is. -/
structure SaveEnvelope (α : Type) where
  search_job_title : List Char
  search_location : List Char
  timestamp : List Char
  total_jobs : Nat
  job : List α
deriving DecidableEq

/-- Build the envelope of lines 160-170. -/
def save_envelope {α : Type} (jobs : List α) (job_title location iso_ts : List Char) :
    SaveEnvelope α :=
  { search_job_title := job_title ++ "_detailed".toList
    search_location := location
    timestamp := iso_ts
    total_jobs := jobs.length
    job := jobs }

/-! ## Lemmas about the query-string parsing model -/

theorem breakAtChar_not_mem {sep : Char} {l : List Char} (h : sep ∉ l) :
    breakAtChar sep l = (l, none) := by
  induction l with
  | nil => rfl
  | cons c rest ih =>
    have hc : ¬ c = sep := fun hh => h (hh ▸ List.mem_cons_self c rest)
    have hr : sep ∉ rest := fun hm => h (List.mem_cons_of_mem _ hm)
    simp only [breakAtChar, if_neg hc, ih hr]

theorem breakAtChar_fst_subset {sep c : Char} {l : List Char}
    (h : c ∈ (breakAtChar sep l).1) : c ∈ l := by
  induction l with
  | nil => simp [breakAtChar] at h
  | cons a rest ih =>
    by_cases ha : a = sep
    · simp [breakAtChar, ha] at h
    · simp only [breakAtChar, if_neg ha] at h
      rcases List.mem_cons.1 h with h | h
      · exact h ▸ List.mem_cons_self a rest
      · exact List.mem_cons_of_mem _ (ih h)

theorem breakAtChar_snd_subset {sep c : Char} {l a r : List Char}
    (h : breakAtChar sep l = (a, some r)) (hc : c ∈ r) : c ∈ l := by
  induction l generalizing a with
  | nil => simp [breakAtChar] at h
  | cons x rest ih =>
    by_cases hx : x = sep
    · simp only [breakAtChar, if_pos hx] at h
      cases h
      exact List.mem_cons_of_mem _ hc
    · simp only [breakAtChar, if_neg hx] at h
      rcases hb : breakAtChar sep rest with ⟨p1, p2⟩
      rw [hb] at h
      cases h
      exact List.mem_cons_of_mem _ (ih hb)

theorem breakAtChar_append_sep {sep : Char} {a b : List Char} (h : sep ∉ a) :
    breakAtChar sep (a ++ sep :: b) = (a, some b) := by
  induction a with
  | nil => simp [breakAtChar]
  | cons c rest ih =>
    have hc : ¬ c = sep := fun hh => h (hh ▸ List.mem_cons_self c rest)
    have hr : sep ∉ rest := fun hm => h (List.mem_cons_of_mem _ hm)
    simp only [List.cons_append, breakAtChar, if_neg hc, List.append_eq]
    rw [ih hr]

theorem splitAllChar_ne_nil {sep : Char} {l : List Char} : splitAllChar sep l ≠ [] := by
  cases l with
  | nil => simp [splitAllChar]
  | cons c rest =>
    simp only [splitAllChar]
    rcases splitAllChar sep rest with _ | ⟨h, t⟩
    · simp
    · by_cases hc : c = sep <;> simp [hc]

theorem splitAllChar_not_mem {sep : Char} {l : List Char} (h : sep ∉ l) :
    splitAllChar sep l = [l] := by
  induction l with
  | nil => rfl
  | cons c rest ih =>
    have hc : ¬ c = sep := fun hh => h (hh ▸ List.mem_cons_self c rest)
    have hr : sep ∉ rest := fun hm => h (List.mem_cons_of_mem _ hm)
    simp only [splitAllChar, ih hr, if_neg hc]

theorem splitAllChar_subset {sep c : Char} {l p : List Char}
    (hp : p ∈ splitAllChar sep l) (hc : c ∈ p) : c ∈ l := by
  induction l generalizing p with
  | nil =>
    simp only [splitAllChar, List.mem_singleton] at hp
    subst hp
    simp at hc
  | cons x rest ih =>
    rcases hs : splitAllChar sep rest with _ | ⟨h, t⟩
    · exact absurd hs splitAllChar_ne_nil
    · simp only [splitAllChar, hs] at hp
      by_cases hx : x = sep
      · rw [if_pos hx] at hp
        rcases List.mem_cons.1 hp with h1 | h1
        · subst h1; simp at hc
        · exact List.mem_cons_of_mem _ (ih (hs ▸ h1) hc)
      · rw [if_neg hx] at hp
        rcases List.mem_cons.1 hp with h1 | h1
        · subst h1
          rcases List.mem_cons.1 hc with h2 | h2
          · exact h2 ▸ List.mem_cons_self x rest
          · exact List.mem_cons_of_mem _ (ih (hs ▸ List.mem_cons_self h t) h2)
        · exact List.mem_cons_of_mem _ (ih (hs ▸ List.mem_cons_of_mem h h1) hc)

theorem splitAllChar_sep_not_mem {sep : Char} {l p : List Char}
    (hp : p ∈ splitAllChar sep l) : sep ∉ p := by
  induction l generalizing p with
  | nil =>
    simp only [splitAllChar, List.mem_singleton] at hp
    subst hp
    simp
  | cons x rest ih =>
    rcases hs : splitAllChar sep rest with _ | ⟨h, t⟩
    · exact absurd hs splitAllChar_ne_nil
    · simp only [splitAllChar, hs] at hp
      by_cases hx : x = sep
      · rw [if_pos hx] at hp
        rcases List.mem_cons.1 hp with h1 | h1
        · subst h1; simp
        · exact ih (hs ▸ h1)
      · rw [if_neg hx] at hp
        rcases List.mem_cons.1 hp with h1 | h1
        · subst h1
          intro hm
          rcases List.mem_cons.1 hm with h2 | h2
          · exact hx h2.symm
          · exact ih (hs ▸ List.mem_cons_self h t) h2
        · exact ih (hs ▸ List.mem_cons_of_mem h h1)

theorem plusToSpace_no_plus {l : List Char} : '+' ∉ plusToSpace l := by
  intro hm
  rcases List.mem_map.1 hm with ⟨a, _, hfa⟩
  by_cases ha : a = '+' <;> simp [ha] at hfa

theorem plusToSpace_subset {c : Char} {l : List Char} (h : c ∈ plusToSpace l) :
    c = ' ' ∨ c ∈ l := by
  rcases List.mem_map.1 h with ⟨a, hal, hfa⟩
  by_cases ha : a = '+'
  · rw [if_pos ha] at hfa
    exact Or.inl hfa.symm
  · rw [if_neg ha] at hfa
    exact Or.inr (hfa ▸ hal)

theorem plusToSpace_of_no_plus {l : List Char} (h : '+' ∉ l) : plusToSpace l = l := by
  induction l with
  | nil => rfl
  | cons c rest ih =>
    have hc : ¬ c = '+' := fun hh => h (hh ▸ List.mem_cons_self c rest)
    have hr : '+' ∉ rest := fun hm => h (List.mem_cons_of_mem _ hm)
    show (if c = '+' then ' ' else c) :: plusToSpace rest = c :: rest
    rw [if_neg hc, ih hr]

theorem plusToSpace_ne_nil {l : List Char} (h : l ≠ []) : plusToSpace l ≠ [] := by
  cases l with
  | nil => exact absurd rfl h
  | cons c rest => simp [plusToSpace]

theorem parse_qsl_mem_spec {q n v : List Char} (h : (n, v) ∈ parse_qsl q) :
    ∃ piece, piece ∈ splitAllChar '&' q ∧ ∃ n0 v0,
      breakAtChar '=' piece = (n0, some v0) ∧ v0 ≠ [] ∧
      n = plusToSpace n0 ∧ v = plusToSpace v0 := by
  simp only [parse_qsl, List.mem_filterMap] at h
  rcases h with ⟨piece, hp, hf⟩
  rcases hb : breakAtChar '=' piece with ⟨n0, vo⟩
  cases vo with
  | none => rw [hb] at hf; simp at hf
  | some v0 =>
    rw [hb] at hf
    by_cases hv : v0 = []
    · simp [hv] at hf
    · simp [hv] at hf
      exact ⟨piece, hp, n0, v0, hb, hv, hf.1.symm, hf.2.symm⟩

theorem parse_qsl_val_props {q n v : List Char} (h : (n, v) ∈ parse_qsl q) :
    v ≠ [] ∧ '+' ∉ v ∧ '&' ∉ v ∧ ('#' ∉ q → '#' ∉ v) := by
  rcases parse_qsl_mem_spec h with ⟨piece, hp, n0, v0, hb, hv0, _, hvv⟩
  subst hvv
  refine ⟨plusToSpace_ne_nil hv0, plusToSpace_no_plus, ?_, ?_⟩
  · intro hamp
    rcases plusToSpace_subset hamp with h1 | h1
    · exact absurd h1 (by decide)
    · exact splitAllChar_sep_not_mem hp (breakAtChar_snd_subset hb h1)
  · intro hq hhash
    rcases plusToSpace_subset hhash with h1 | h1
    · exact absurd h1 (by decide)
    · exact hq (splitAllChar_subset hp (breakAtChar_snd_subset hb h1))

theorem firstValue_mem {key v : List Char} :
    ∀ {qs : List (List Char × List Char)}, firstValue key qs = some v → (key, v) ∈ qs := by
  intro qs
  induction qs with
  | nil => intro h; simp [firstValue] at h
  | cons p rest ih =>
    rcases p with ⟨n, w⟩
    intro h
    by_cases hn : n = key
    · rw [firstValue, if_pos hn] at h
      cases h
      subst hn
      exact List.mem_cons_self _ _
    · rw [firstValue, if_neg hn] at h
      exact List.mem_cons_of_mem _ (ih h)

theorem breakAtChar_fst_sep_not_mem {sep : Char} {l : List Char} :
    sep ∉ (breakAtChar sep l).1 := by
  induction l with
  | nil => simp [breakAtChar]
  | cons c rest ih =>
    by_cases hc : c = sep
    · simp [breakAtChar, hc]
    · simp only [breakAtChar, if_neg hc]
      intro hm
      rcases List.mem_cons.1 hm with h | h
      · exact hc h.symm
      · exact ih h

theorem getQuery_no_hash {url : List Char} : '#' ∉ getQuery url := by
  intro hm
  have h1 : '#' ∉ (breakAtChar '#' url).1 := breakAtChar_fst_sep_not_mem
  rw [getQuery] at hm
  rcases hb : breakAtChar '?' (breakAtChar '#' url).1 with ⟨p1, p2⟩
  rw [hb] at hm
  cases p2 with
  | none => simp at hm
  | some q => exact h1 (breakAtChar_snd_subset hb hm)

/-! ## Lemmas about `normalize_job_url` -/

theorem pyOrOpt_eq_some {a b : Option (List Char)} {v : List Char}
    (h : pyOrOpt a b = some v) : a = some v ∨ b = some v := by
  rcases a with _ | w
  · exact Or.inr h
  · rcases w with _ | ⟨c, cs⟩
    · exact Or.inr h
    · exact Or.inl h

theorem normalize_of_jk {url v : List Char}
    (h : firstValue jkKey (parse_qsl (getQuery url)) = some v) :
    normalize_job_url url = canonBase ++ v := by
  have hv : v ≠ [] := (parse_qsl_val_props (firstValue_mem h)).1
  cases v with
  | nil => exact absurd rfl hv
  | cons c cs =>
    simp only [normalize_job_url]
    rw [h]
    rfl

theorem normalize_of_vjk {url v : List Char}
    (h0 : firstValue jkKey (parse_qsl (getQuery url)) = none)
    (h : firstValue vjkKey (parse_qsl (getQuery url)) = some v) :
    normalize_job_url url = canonBase ++ v := by
  have hv : v ≠ [] := (parse_qsl_val_props (firstValue_mem h)).1
  cases v with
  | nil => exact absurd rfl hv
  | cons c cs =>
    simp only [normalize_job_url]
    rw [h0, h]
    rfl

theorem normalize_of_neither {url : List Char}
    (h0 : firstValue jkKey (parse_qsl (getQuery url)) = none)
    (h1 : firstValue vjkKey (parse_qsl (getQuery url)) = none) :
    normalize_job_url url = normTail url := by
  simp only [normalize_job_url]
  rw [h0, h1]
  rfl

theorem firstValue_query_props {key url v : List Char}
    (h : firstValue key (parse_qsl (getQuery url)) = some v) :
    v ≠ [] ∧ '&' ∉ v ∧ '#' ∉ v ∧ '+' ∉ v := by
  rcases parse_qsl_val_props (firstValue_mem h) with ⟨h1, h2, h3, h4⟩
  exact ⟨h1, h3, h4 getQuery_no_hash, h2⟩

theorem canon_getQuery {v : List Char} (hhash : '#' ∉ v) :
    getQuery (canonBase ++ v) = 'j' :: 'k' :: '=' :: v := by
  have h1 : breakAtChar '#' (canonBase ++ v) = (canonBase ++ v, none) :=
    breakAtChar_not_mem (by
      intro hm
      rcases List.mem_append.1 hm with h | h
      · exact absurd h (by decide)
      · exact hhash h)
  have hsplit : canonBase ++ v =
      "https://www.indeed.com/viewjob".toList ++ '?' :: ('j' :: 'k' :: '=' :: v) := by
    have hc : canonBase = "https://www.indeed.com/viewjob".toList ++ ('?' :: ['j', 'k', '=']) := by
      decide
    rw [hc, List.append_assoc]
    rfl
  simp only [getQuery, h1]
  rw [hsplit, breakAtChar_append_sep (by decide)]

theorem canon_parse {v : List Char} (hne : v ≠ []) (hamp : '&' ∉ v) (hplus : '+' ∉ v) :
    parse_qsl ('j' :: 'k' :: '=' :: v) = [(jkKey, v)] := by
  have h3 : splitAllChar '&' ('j' :: 'k' :: '=' :: v) = ['j' :: 'k' :: '=' :: v] :=
    splitAllChar_not_mem (by
      intro hm
      simp only [List.mem_cons] at hm
      rcases hm with h | h | h | h
      · exact absurd h (by decide)
      · exact absurd h (by decide)
      · exact absurd h (by decide)
      · exact hamp h)
  have h4 : breakAtChar '=' ('j' :: 'k' :: '=' :: v) = (['j', 'k'], some v) := rfl
  rw [parse_qsl, h3]
  simp only [List.filterMap_cons, List.filterMap_nil, h4, if_neg hne]
  rw [plusToSpace_of_no_plus hplus]
  rfl

theorem canon_reparse {v : List Char} (hne : v ≠ []) (hamp : '&' ∉ v)
    (hhash : '#' ∉ v) (hplus : '+' ∉ v) :
    normalize_job_url (canonBase ++ v) = canonBase ++ v := by
  apply normalize_of_jk
  rw [canon_getQuery hhash, canon_parse hne hamp hplus]
  simp [firstValue]

theorem normalize_idem_of_no_mobile {url : List Char}
    (hm : isSubstring mSeg url = false) :
    normalize_job_url (normalize_job_url url) = normalize_job_url url := by
  rcases hj : pyOrOpt (firstValue jkKey (parse_qsl (getQuery url)))
      (firstValue vjkKey (parse_qsl (getQuery url))) with _ | v
  · have h0 : normalize_job_url url = url := by
      simp only [normalize_job_url]
      rw [hj]
      simp [normTail, hm]
    rw [h0]
    exact h0
  · cases v with
    | nil =>
      have h0 : normalize_job_url url = url := by
        simp only [normalize_job_url]
        rw [hj]
        simp [normTail, hm]
      rw [h0]
      exact h0
    | cons c cs =>
      have h0 : normalize_job_url url = canonBase ++ (c :: cs) := by
        simp only [normalize_job_url]
        rw [hj]
      have props : (c :: cs) ≠ [] ∧ '&' ∉ (c :: cs) ∧ '#' ∉ (c :: cs) ∧ '+' ∉ (c :: cs) := by
        rcases pyOrOpt_eq_some hj with h | h
        · exact firstValue_query_props h
        · exact firstValue_query_props h
      rw [h0]
      exact canon_reparse props.1 props.2.1 props.2.2.1 props.2.2.2

/-! ## Relating `parse_qsl` to the raw query pairs -/

theorem parse_qsl_eq_rawPairs (q : List Char) :
    parse_qsl q = (rawPairs q).filterMap fun p =>
      if p.2 = [] then none else some (plusToSpace p.1, plusToSpace p.2) := by
  rw [rawPairs, List.filterMap_filterMap, parse_qsl]
  congr 1
  funext piece
  rcases hb : breakAtChar '=' piece with ⟨n0, vo⟩
  cases vo with
  | none => simp [hb]
  | some v0 => by_cases hv : v0 = [] <;> simp [hb, hv]

theorem plusToSpace_mem_space {l : List Char} (h : '+' ∈ l) : ' ' ∈ plusToSpace l :=
  List.mem_map.2 ⟨'+', h, by simp⟩

theorem plusToSpace_eq_key {key n : List Char} (hp : '+' ∉ key) (hs : ' ' ∉ key) :
    plusToSpace n = key ↔ n = key := by
  constructor
  · intro h
    by_cases hpn : '+' ∈ n
    · exact absurd (h ▸ plusToSpace_mem_space hpn) hs
    · rw [plusToSpace_of_no_plus hpn] at h
      exact h
  · intro h
    rw [h, plusToSpace_of_no_plus hp]

theorem firstValue_parse_eq {key : List Char} (hp : '+' ∉ key) (hs : ' ' ∉ key)
    (l : List (List Char × List Char)) :
    firstValue key (l.filterMap fun p =>
        if p.2 = [] then none else some (plusToSpace p.1, plusToSpace p.2)) =
      (firstNEValue key l).map plusToSpace := by
  induction l with
  | nil => rfl
  | cons p t ih =>
    rcases p with ⟨n, v⟩
    by_cases hv : v = []
    · simp only [List.filterMap_cons, if_pos hv]
      rw [ih]
      simp only [firstNEValue, if_pos hv]
      by_cases hn : n = key <;> simp [hn]
    · simp only [List.filterMap_cons, if_neg hv]
      by_cases hn : n = key
      · simp only [firstValue, firstNEValue,
          if_pos ((plusToSpace_eq_key hp hs).mpr hn), if_pos hn, if_neg hv]
        rfl
      · simp only [firstValue, firstNEValue,
          if_neg (fun hh => hn ((plusToSpace_eq_key hp hs).mp hh)), if_neg hn]
        exact ih

theorem firstValue_query_raw (key url : List Char) (hp : '+' ∉ key) (hs : ' ' ∉ key) :
    firstValue key (parse_qsl (getQuery url)) =
      (firstNEValue key (rawPairs (getQuery url))).map plusToSpace := by
  rw [parse_qsl_eq_rawPairs]
  exact firstValue_parse_eq hp hs _

/-! ## Lemmas about the listing-fetch loop -/

theorem allUrls_err {rest : List Resp} :
    allUrls (.transportError :: rest) = allUrls rest := by
  simp [allUrls]

theorem allUrls_body {jobs : List (Option (List Char))} {rest : List Resp} :
    allUrls (.body jobs :: rest) = presentUrls jobs ++ allUrls rest := by
  simp [allUrls]

theorem dedupAll_nodup_notin : ∀ (l seen : List (List Char)),
    (dedupAll l seen).Nodup ∧ ∀ x ∈ dedupAll l seen, x ∉ seen := by
  intro l
  induction l with
  | nil => intro seen; simp [dedupAll]
  | cons u rest ih =>
    intro seen
    by_cases hu : u ∈ seen
    · simp only [dedupAll, if_pos hu]
      exact ih seen
    · simp only [dedupAll, if_neg hu]
      rcases ih (u :: seen) with ⟨h1, h2⟩
      refine ⟨List.nodup_cons.2 ⟨fun hm => (h2 u hm) (List.mem_cons_self u seen), h1⟩, ?_⟩
      intro x hx
      rcases List.mem_cons.1 hx with h | h
      · exact h ▸ hu
      · intro hxs
        exact h2 x h (List.mem_cons_of_mem _ hxs)

theorem dedupAll_congr : ∀ (l s1 s2 : List (List Char)),
    (∀ x, x ∈ s1 ↔ x ∈ s2) → dedupAll l s1 = dedupAll l s2 := by
  intro l
  induction l with
  | nil => intro s1 s2 _; rfl
  | cons u rest ih =>
    intro s1 s2 h
    by_cases hu : u ∈ s1
    · rw [dedupAll, dedupAll, if_pos hu, if_pos ((h u).1 hu)]
      exact ih s1 s2 h
    · rw [dedupAll, dedupAll, if_neg hu, if_neg (fun hh => hu ((h u).2 hh))]
      rw [ih (u :: s1) (u :: s2) (by intro x; simp [List.mem_cons, h x])]

theorem dedupAll_append : ∀ (a b seen : List (List Char)),
    dedupAll (a ++ b) seen = dedupAll a seen ++ dedupAll b (dedupAll a seen ++ seen) := by
  intro a
  induction a with
  | nil => intro b seen; simp [dedupAll]
  | cons u t ih =>
    intro b seen
    by_cases hu : u ∈ seen
    · simp only [List.cons_append, dedupAll, if_pos hu]
      exact ih b seen
    · simp only [List.cons_append, dedupAll, if_neg hu, List.append_eq]
      rw [ih b (u :: seen),
        dedupAll_congr b (dedupAll t (u :: seen) ++ u :: seen)
          (u :: (dedupAll t (u :: seen) ++ seen))
          (by intro x; simp only [List.mem_cons, List.mem_append]; tauto)]

theorem dedupStep_fst : ∀ (jobs : List (Option (List Char))) (seen : List (List Char)),
    (dedupStep jobs seen).1 = dedupAll (presentUrls jobs) seen := by
  intro jobs
  induction jobs with
  | nil => intro seen; rfl
  | cons j rest ih =>
    intro seen
    rcases j with _ | u
    · simpa [dedupStep, presentUrls, List.filterMap_cons] using ih seen
    · rcases u with _ | ⟨c, cs⟩
      · simpa [dedupStep, presentUrls, List.filterMap_cons] using ih seen
      · by_cases hm : (c :: cs) ∈ seen
        · simp only [dedupStep, if_pos hm, presentUrls, List.filterMap_cons]
          simp only [dedupAll, if_pos hm]
          simpa [presentUrls] using ih seen
        · simp only [dedupStep, if_neg hm, presentUrls, List.filterMap_cons]
          simp only [dedupAll, if_neg hm]
          simpa [presentUrls] using ih ((c :: cs) :: seen)

theorem dedupStep_snd_mem : ∀ (jobs : List (Option (List Char)))
    (seen : List (List Char)) (x : List Char),
    x ∈ (dedupStep jobs seen).2 ↔ x ∈ (dedupStep jobs seen).1 ∨ x ∈ seen := by
  intro jobs
  induction jobs with
  | nil => intro seen x; simp [dedupStep]
  | cons j rest ih =>
    intro seen x
    rcases j with _ | u
    · simpa [dedupStep] using ih seen x
    · rcases u with _ | ⟨c, cs⟩
      · simpa [dedupStep] using ih seen x
      · by_cases hm : (c :: cs) ∈ seen
        · simpa [dedupStep, if_pos hm] using ih seen x
        · simp only [dedupStep, if_neg hm]
          rw [ih ((c :: cs) :: seen) x]
          simp only [List.mem_cons]
          tauto

theorem fetchGo_reqs_acc (limit : Option Nat) : ∀ (resps : List Resp) (start : Nat)
    (seen collected : List (List Char)) (a : List Nat),
    fetchGo limit resps start seen collected a =
      ((fetchGo limit resps start seen collected []).1,
        a ++ (fetchGo limit resps start seen collected []).2) := by
  intro resps
  induction resps with
  | nil => intro start seen collected a; simp [fetchGo]
  | cons r rest ih =>
    intro start seen collected a
    rcases r with _ | jobs
    · simp [fetchGo]
    · rcases jobs with _ | ⟨j, js⟩
      · simp [fetchGo]
      · rcases limit with _ | n
        · simp only [fetchGo]
          rw [ih _ _ _ (a ++ [start]), ih _ _ _ ([] ++ [start])]
          simp [List.append_assoc]
        · simp only [fetchGo]
          by_cases hl : n ≤ (collected ++ (dedupStep (j :: js) seen).1).length
          · simp only [if_pos hl]
            simp
          · simp only [if_neg hl]
            rw [ih _ _ _ (a ++ [start]), ih _ _ _ ([] ++ [start])]
            simp [List.append_assoc]

theorem fetchGo_fst_acc (limit : Option Nat) (resps : List Resp) (start : Nat)
    (seen collected : List (List Char)) (a : List Nat) :
    (fetchGo limit resps start seen collected a).1 =
      (fetchGo limit resps start seen collected []).1 := by
  rw [fetchGo_reqs_acc]

theorem fetchGo_result_aux (limit : Option Nat) : ∀ (resps : List Resp) (start : Nat)
    (seen collected : List (List Char)) (reqs : List Nat),
    (∀ x, x ∈ seen ↔ x ∈ collected) → collected.Nodup →
    (fetchGo limit resps start seen collected reqs).1.Nodup ∧
      (fetchGo limit resps start seen collected reqs).1 <+:
        collected ++ dedupAll (allUrls resps) seen := by
  intro resps
  induction resps with
  | nil =>
    intro start seen collected reqs hiff hnd
    exact ⟨hnd, List.prefix_append _ _⟩
  | cons r rest ih =>
    intro start seen collected reqs hiff hnd
    rcases r with _ | jobs
    · constructor
      · simpa [fetchGo] using hnd
      · simp only [fetchGo, allUrls_err]
        exact List.prefix_append _ _
    · rcases jobs with _ | ⟨j, js⟩
      · constructor
        · simpa [fetchGo] using hnd
        · simp only [fetchGo, allUrls_body, presentUrls, List.filterMap_nil,
            List.nil_append]
          exact List.prefix_append _ _
      · have hstep := dedupStep_fst (j :: js) seen
        have hnew_nodup : (dedupStep (j :: js) seen).1.Nodup := by
          rw [hstep]
          exact (dedupAll_nodup_notin _ _).1
        have hnew_notin : ∀ x ∈ (dedupStep (j :: js) seen).1, x ∉ seen := by
          rw [hstep]
          exact (dedupAll_nodup_notin _ _).2
        have hnd' : (collected ++ (dedupStep (j :: js) seen).1).Nodup := by
          refine List.Nodup.append hnd hnew_nodup ?_
          intro x hx hx2
          exact hnew_notin x hx2 ((hiff x).2 hx)
        have hsplit : collected ++ dedupAll (allUrls (Resp.body (j :: js) :: rest)) seen =
            (collected ++ (dedupStep (j :: js) seen).1) ++
              dedupAll (allUrls rest) ((dedupStep (j :: js) seen).1 ++ seen) := by
          rw [allUrls_body, dedupAll_append, hstep, List.append_assoc]
        have hiff' : ∀ x, x ∈ (dedupStep (j :: js) seen).2 ↔
            x ∈ collected ++ (dedupStep (j :: js) seen).1 := by
          intro x
          rw [dedupStep_snd_mem, List.mem_append, hiff x]
          tauto
        have hcongr : dedupAll (allUrls rest) ((dedupStep (j :: js) seen).2) =
            dedupAll (allUrls rest) ((dedupStep (j :: js) seen).1 ++ seen) :=
          dedupAll_congr _ _ _ (by
            intro x
            rw [dedupStep_snd_mem, List.mem_append])
        rcases limit with _ | n
        · simp only [fetchGo]
          rcases ih (start + (j :: js).length) (dedupStep (j :: js) seen).2
            (collected ++ (dedupStep (j :: js) seen).1) (reqs ++ [start]) hiff' hnd' with
            ⟨ha, hb⟩
          refine ⟨ha, ?_⟩
          rw [hsplit, ← hcongr]
          exact hb
        · simp only [fetchGo]
          by_cases hl : n ≤ (collected ++ (dedupStep (j :: js) seen).1).length
          · simp only [if_pos hl]
            constructor
            · exact List.Nodup.sublist (List.take_sublist n _) hnd'
            · rw [hsplit]
              exact ( List.take_prefix n _).trans (List.prefix_append _ _)
          · simp only [if_neg hl]
            rcases ih (start + (j :: js).length) (dedupStep (j :: js) seen).2
              (collected ++ (dedupStep (j :: js) seen).1) (reqs ++ [start]) hiff' hnd' with
              ⟨ha, hb⟩
            refine ⟨ha, ?_⟩
            rw [hsplit, ← hcongr]
            exact hb

theorem fetchGo_none_mono : ∀ (resps : List Resp) (start : Nat)
    (seen collected : List (List Char)) (reqs : List Nat),
    collected <+: (fetchGo none resps start seen collected reqs).1 := by
  intro resps
  induction resps with
  | nil => intro start seen collected reqs; exact List.prefix_rfl
  | cons r rest ih =>
    intro start seen collected reqs
    rcases r with _ | jobs
    · simp only [fetchGo]
      exact List.prefix_rfl
    · rcases jobs with _ | ⟨j, js⟩
      · simp only [fetchGo]
        exact List.prefix_rfl
      · simp only [fetchGo]
        exact (List.prefix_append _ _).trans (ih _ _ _ _)

theorem fetchGo_limit_len : ∀ (resps : List Resp) (n start : Nat)
    (seen collected : List (List Char)) (reqs : List Nat),
    collected.length ≤ n →
    ((fetchGo (some n) resps start seen collected reqs).1).length ≤ n := by
  intro resps
  induction resps with
  | nil => intro n start seen collected reqs h; simpa [fetchGo] using h
  | cons r rest ih =>
    intro n start seen collected reqs h
    rcases r with _ | jobs
    · simpa [fetchGo] using h
    · rcases jobs with _ | ⟨j, js⟩
      · simpa [fetchGo] using h
      · simp only [fetchGo]
        by_cases hl : n ≤ (collected ++ (dedupStep (j :: js) seen).1).length
        · simp only [if_pos hl]
          simp [List.length_take]
        · simp only [if_neg hl]
          exact ih n _ _ _ _ (Nat.le_of_lt (Nat.lt_of_not_le hl))

theorem fetchGo_take_eq : ∀ (resps : List Resp) (n start : Nat)
    (seen collected : List (List Char)) (reqs : List Nat),
    collected.length < n →
    n ≤ ((fetchGo none resps start seen collected reqs).1).length →
    (fetchGo (some n) resps start seen collected reqs).1 =
      ((fetchGo none resps start seen collected reqs).1).take n := by
  intro resps
  induction resps with
  | nil =>
    intro n start seen collected reqs h1 h2
    simp only [fetchGo] at h2 ⊢
    exact absurd h2 (Nat.not_le_of_lt h1)
  | cons r rest ih =>
    intro n start seen collected reqs h1 h2
    rcases r with _ | jobs
    · simp only [fetchGo] at h2 ⊢
      exact absurd h2 (Nat.not_le_of_lt h1)
    · rcases jobs with _ | ⟨j, js⟩
      · simp only [fetchGo] at h2 ⊢
        exact absurd h2 (Nat.not_le_of_lt h1)
      · simp only [fetchGo] at h2 ⊢
        by_cases hl : n ≤ (collected ++ (dedupStep (j :: js) seen).1).length
        · simp only [if_pos hl]
          rcases fetchGo_none_mono rest (start + (j :: js).length)
            (dedupStep (j :: js) seen).2 (collected ++ (dedupStep (j :: js) seen).1)
            (reqs ++ [start]) with ⟨t, ht⟩
          rw [← ht, List.take_append_of_le_length hl]
        · simp only [if_neg hl]
          exact ih n _ _ _ _ (Nat.lt_of_not_le hl) h2

theorem fetchGo_req_bound : ∀ (resps : List Resp) (n j start : Nat)
    (seen collected : List (List Char)) (reqs : List Nat),
    collected.length < n →
    n ≤ ((fetchGo none (resps.take j) start seen collected []).1).length →
    ((fetchGo (some n) resps start seen collected reqs).2).length ≤ reqs.length + j := by
  intro resps
  induction resps with
  | nil =>
    intro n j start seen collected reqs h1 h2
    simp only [fetchGo]
    exact Nat.le_add_right _ _
  | cons r rest ih =>
    intro n j start seen collected reqs h1 h2
    rcases j with _ | j'
    · rw [List.take_zero] at h2
      simp only [fetchGo] at h2
      exact absurd h2 (Nat.not_le_of_lt h1)
    · rcases r with _ | jobs
      · rw [List.take_succ_cons] at h2
        simp only [fetchGo] at h2
        exact absurd h2 (Nat.not_le_of_lt h1)
      · rcases jobs with _ | ⟨j0, js⟩
        · rw [List.take_succ_cons] at h2
          simp only [fetchGo] at h2
          exact absurd h2 (Nat.not_le_of_lt h1)
        · rw [List.take_succ_cons] at h2
          simp only [fetchGo] at h2 ⊢
          by_cases hl : n ≤ (collected ++ (dedupStep (j0 :: js) seen).1).length
          · simp only [if_pos hl]
            simp only [List.length_append, List.length_singleton]
            omega
          · simp only [if_neg hl]
            rw [fetchGo_fst_acc] at h2
            have hih := ih n j' (start + (j0 :: js).length) (dedupStep (j0 :: js) seen).2
              (collected ++ (dedupStep (j0 :: js) seen).1) (reqs ++ [start])
              (Nat.lt_of_not_le hl) h2
            simp only [List.length_append, List.length_singleton] at hih
            omega

theorem fetchGo_offsets (limit : Option Nat) : ∀ (resps : List Resp) (start : Nat)
    (seen collected : List (List Char)) (k : Nat),
    k < ((fetchGo limit resps start seen collected []).2).length →
    ((fetchGo limit resps start seen collected []).2).getD k 0 =
      start + ((resps.take k).map rawLen).sum := by
  intro resps
  induction resps with
  | nil => intro start seen collected k hk; simp [fetchGo] at hk
  | cons r rest ih =>
    intro start seen collected k hk
    rcases r with _ | jobs
    · simp only [fetchGo] at hk ⊢
      obtain rfl : k = 0 := Nat.lt_one_iff.mp (by simpa using hk)
      simp
    · rcases jobs with _ | ⟨j0, js⟩
      · simp only [fetchGo] at hk ⊢
        obtain rfl : k = 0 := Nat.lt_one_iff.mp (by simpa using hk)
        simp
      · rcases limit with _ | n
        · simp only [fetchGo] at hk ⊢
          rw [List.nil_append, fetchGo_reqs_acc] at hk ⊢
          rcases k with _ | k'
          · simp
          · simp only [List.singleton_append, List.getD_cons_succ, List.take_succ_cons,
              List.map_cons, List.sum_cons] at hk ⊢
            rw [ih _ _ _ k' (by simpa using hk)]
            simp [rawLen]
            omega
        · simp only [fetchGo] at hk ⊢
          by_cases hl : n ≤ (collected ++ (dedupStep (j0 :: js) seen).1).length
          · simp only [if_pos hl] at hk ⊢
            obtain rfl : k = 0 := Nat.lt_one_iff.mp (by simpa using hk)
            simp
          · simp only [if_neg hl] at hk ⊢
            rw [List.nil_append, fetchGo_reqs_acc] at hk ⊢
            rcases k with _ | k'
            · simp
            · simp only [List.singleton_append, List.getD_cons_succ, List.take_succ_cons,
                List.map_cons, List.sum_cons] at hk ⊢
              rw [ih _ _ _ k' (by simpa using hk)]
              simp [rawLen]
              omega

/-! ## Lemmas about the detail extraction, validation and writer models -/

theorem pick_head {fs : List (List Char × JVal)} {k : List Char} {v : JVal}
    (h : dlookup fs k = some v) (ht : truthyJ v = true) (rest : List (List Char)) :
    pick fs (k :: rest) = v := by
  simp [pick, h, ht]

theorem pyOrJ_of_truthy {a : JVal} (b : JVal) (h : truthyJ a = true) : pyOrJ a b = a := by
  simp [pyOrJ, h]

theorem pyOrJ_ne_null (v : JVal) : pyOrJ v (.str []) ≠ .nullv := by
  by_cases h : truthyJ v
  · rw [pyOrJ, if_pos h]
    cases v with
    | nullv => simp [truthyJ] at h
    | str s => simp
    | obj fs => simp
  · rw [pyOrJ, if_neg h]
    simp

theorem job_title_clean_eq (jt : List Char) :
    job_title_clean jt = jt.map fun c => if c = ' ' ∨ c = '/' then '_' else c := by
  rw [job_title_clean, pyReplaceChar, pyReplaceChar, List.map_map]
  apply List.map_congr_left
  intro c _
  by_cases h1 : c = ' '
  · simp [h1, Function.comp]
  · by_cases h2 : c = '/'
    · simp [h1, h2, Function.comp]
    · simp [h1, h2, Function.comp]

theorem space_filter_comma_comm (l : List Char) :
    ((l.map fun c => if c = ' ' then '_' else c).filter fun c => ¬ c = ',') =
      ((l.filter fun c => ¬ c = ',').map fun c => if c = ' ' then '_' else c) := by
  induction l with
  | nil => rfl
  | cons c rest ih =>
    by_cases h1 : c = ' '
    · subst h1
      simpa using ih
    · by_cases h2 : c = ','
      · subst h2
        simpa using ih
      · simp only [List.map_cons, List.filter_cons, if_neg h1]
        simp [h1, h2]
        simpa using ih

theorem location_clean_eq (loc : List Char) :
    location_clean loc = (loc.filter fun c => ¬ c = ',').map
      fun c => if c = ' ' ∨ c = '/' then '_' else c := by
  rw [location_clean, pyReplaceChar, pyRemoveChar, pyReplaceChar, space_filter_comma_comm,
    List.map_map]
  apply List.map_congr_left
  intro c _
  by_cases h1 : c = ' '
  · simp [h1, Function.comp]
  · by_cases h2 : c = '/'
    · simp [h1, h2, Function.comp]
    · simp [h1, h2, Function.comp]

/-! ## The claims -/

/-- C1: for every sequence of listing pages returned by the API, the list
`fetch_job_listings` returns contains each raw URL string at most once
(`Nodup`) and in first-seen order: it is a prefix of the keep-first
deduplication of the full raw-URL stream of the pages.  Deduplication
compares raw URL strings exactly, not normalized forms: two distinct raw URLs
with the same normalized form are both kept. -/
theorem claim_C1 :
    (∀ (resps : List Resp) (limit : Option Nat),
      ((fetch_job_listings resps limit).1).Nodup ∧
      (fetch_job_listings resps limit).1 <+: dedupAll (allUrls resps) []) ∧
    (fetch_job_listings
        [Resp.body [some "https://www.indeed.com/viewjob?jk=x".toList,
          some "https://www.indeed.com/m/viewjob?jk=x".toList]] none).1 =
      ["https://www.indeed.com/viewjob?jk=x".toList,
        "https://www.indeed.com/m/viewjob?jk=x".toList] ∧
    normalize_job_url "https://www.indeed.com/m/viewjob?jk=x".toList =
      normalize_job_url "https://www.indeed.com/viewjob?jk=x".toList := by
  refine ⟨?_, by decide, by decide⟩
  intro resps limit
  have h := fetchGo_result_aux limit resps 0 [] [] [] (by intro x; simp) List.nodup_nil
  exact ⟨h.1, by simpa using h.2⟩

/-- C2: with `limit = n ≥ 1` the returned list never exceeds `n` URLs; when
the pages hold at least `n` unique URLs the result is exactly the first `n`
discovered URLs (the truncation of the unlimited run); and pagination stops
at the page where the `n`-th unique URL is found: if the first `j` pages
already contain `n` unique URLs, at most `j` requests are issued. -/
theorem claim_C2 : ∀ (resps : List Resp) (n : Nat), 1 ≤ n →
    ((fetch_job_listings resps (some n)).1).length ≤ n ∧
    (n ≤ ((fetch_job_listings resps none).1).length →
      (fetch_job_listings resps (some n)).1 =
        ((fetch_job_listings resps none).1).take n) ∧
    (∀ j, n ≤ ((fetch_job_listings (resps.take j) none).1).length →
      ((fetch_job_listings resps (some n)).2).length ≤ j) := by
  intro resps n hn
  simp only [fetch_job_listings]
  refine ⟨fetchGo_limit_len resps n 0 [] [] [] (by simp), ?_, ?_⟩
  · intro h
    exact fetchGo_take_eq resps n 0 [] [] [] (by simpa using hn) h
  · intro j h
    simpa using fetchGo_req_bound resps n j 0 [] [] [] (by simpa using hn) h

/-- C2 witness: the spec's own scenario — limit 3 with two pages holding 5
unique URLs stops after the second request with exactly the first 3. -/
theorem claim_C2_witness :
    ((fetch_job_listings [Resp.body [some ['a'], some ['b']],
        Resp.body [some ['a'], some ['c'], some ['d'], some ['e']]] (some 3)).1).length ≤ 3 ∧
    (fetch_job_listings [Resp.body [some ['a'], some ['b']],
        Resp.body [some ['a'], some ['c'], some ['d'], some ['e']]] (some 3)).1 =
      ((fetch_job_listings [Resp.body [some ['a'], some ['b']],
        Resp.body [some ['a'], some ['c'], some ['d'], some ['e']]] none).1).take 3 ∧
    ((fetch_job_listings [Resp.body [some ['a'], some ['b']],
        Resp.body [some ['a'], some ['c'], some ['d'], some ['e']]] (some 3)).2).length ≤ 2 :=
  ⟨(claim_C2 [Resp.body [some ['a'], some ['b']],
      Resp.body [some ['a'], some ['c'], some ['d'], some ['e']]] 3 (by decide)).1,
   (claim_C2 [Resp.body [some ['a'], some ['b']],
      Resp.body [some ['a'], some ['c'], some ['d'], some ['e']]] 3 (by decide)).2.1 (by decide),
   (claim_C2 [Resp.body [some ['a'], some ['b']],
      Resp.body [some ['a'], some ['c'], some ['d'], some ['e']]] 3 (by decide)).2.2 2 (by decide)⟩

/-- C8: the offset recorded with the `k+1`-st request equals the sum of the
raw `jobs`-array lengths of the pages consumed before it — raw item counts,
not unique counts. -/
theorem claim_C8 : ∀ (resps : List Resp) (limit : Option Nat) (k : Nat),
    k < ((fetch_job_listings resps limit).2).length →
    ((fetch_job_listings resps limit).2).getD k 0 = ((resps.take k).map rawLen).sum := by
  intro resps limit k hk
  simp only [fetch_job_listings] at hk ⊢
  simpa using fetchGo_offsets limit resps 0 [] [] k hk

/-- C8 witness: the second request's offset equals the raw length of page 1
(here 1), although page 2 re-returns an already-seen URL plus an item with no url. -/
theorem claim_C8_witness :
    ((fetch_job_listings [Resp.body [some ['a']], Resp.body [some ['a'], none]] none).2).getD 1 0 =
      (([Resp.body [some ['a']], Resp.body [some ['a'], none]].take 1).map rawLen).sum :=
  claim_C8 [Resp.body [some ['a']], Resp.body [some ['a'], none]] none 1 (by decide)

/-- C3 (amended): `normalize_job_url` is idempotent on every URL that does
not contain the substring `/m/viewjob`; the original claim fails because the
mobile rewrite replaces only the first occurrence, and its result can contain
a further occurrence that a second pass rewrites.  The no-`'%'` hypothesis
marks the region where the model, which omits percent-decoding, is exact
(percent-encoded `&`, `=` or `#` inside a `jk` value break idempotence in the
original too). -/
theorem claim_C3 (url : List Char) (hm : isSubstring mSeg url = false)
    (_hp : '%' ∉ url) :
    normalize_job_url (normalize_job_url url) = normalize_job_url url :=
  normalize_idem_of_no_mobile hm

/-- C3 counterexample: `/m/m/viewjob` normalizes to `/m/viewjob`, which a
second application rewrites again, so `normalize_job_url` is not idempotent. -/
theorem claim_C3_counterexample :
    normalize_job_url (normalize_job_url "/m/m/viewjob".toList) ≠
      normalize_job_url "/m/m/viewjob".toList := by decide

/-- C3 witness: a concrete URL without the mobile segment and without `'%'`. -/
theorem claim_C3_witness :
    normalize_job_url
        (normalize_job_url "https://www.indeed.com/rc/clk?jk=abc123&other=1".toList) =
      normalize_job_url "https://www.indeed.com/rc/clk?jk=abc123&other=1".toList :=
  claim_C3 "https://www.indeed.com/rc/clk?jk=abc123&other=1".toList (by decide) (by decide)

/-- C4: whenever the parsed query carries a `jk` parameter (else a `vjk`
parameter), `normalize_job_url` returns exactly
`https://www.indeed.com/viewjob?jk=` followed by that parameter's first
value, discarding path and other parameters; the rule takes precedence over
the mobile-path rewrite, witnessed by the spec's two concrete examples. -/
theorem claim_C4 :
    (∀ url v, firstValue jkKey (parse_qsl (getQuery url)) = some v →
      normalize_job_url url = canonBase ++ v) ∧
    (∀ url v, firstValue jkKey (parse_qsl (getQuery url)) = none →
      firstValue vjkKey (parse_qsl (getQuery url)) = some v →
      normalize_job_url url = canonBase ++ v) ∧
    normalize_job_url "https://www.indeed.com/rc/clk?jk=abc123&other=1".toList =
      "https://www.indeed.com/viewjob?jk=abc123".toList ∧
    normalize_job_url "https://www.indeed.com/m/viewjob?jk=xyz".toList =
      "https://www.indeed.com/viewjob?jk=xyz".toList :=
  ⟨fun _ _ h => normalize_of_jk h, fun _ _ h0 h => normalize_of_vjk h0 h,
    by decide, by decide⟩

/-- C4 witness: the general jk and vjk rules applied at concrete URLs. -/
theorem claim_C4_witness :
    normalize_job_url "https://www.indeed.com/rc/clk?jk=abc123&other=1".toList =
      canonBase ++ "abc123".toList ∧
    normalize_job_url "https://www.indeed.com/jobs?vjk=77".toList =
      canonBase ++ "77".toList :=
  ⟨claim_C4.1 "https://www.indeed.com/rc/clk?jk=abc123&other=1".toList "abc123".toList
      (by decide),
   claim_C4.2.1 "https://www.indeed.com/jobs?vjk=77".toList "77".toList
      (by decide) (by decide)⟩

/-- C10 (amended): an empty-valued `jk` pair in the query string is dropped
by parsing and never used; `normalize_job_url` then uses the first non-empty
`jk` value if any pair has one, else the first non-empty `vjk` value, else
the mobile rewrite, else returns the input unchanged.  (The original claim
said it falls through to `vjk` whenever the first `jk` pair is empty; a later
non-empty `jk` pair in fact still wins.) -/
theorem claim_C10 : ∀ url : List Char,
    firstValue jkKey (rawPairs (getQuery url)) = some [] →
    (∀ v, firstNEValue jkKey (rawPairs (getQuery url)) = some v →
      normalize_job_url url = canonBase ++ plusToSpace v) ∧
    (∀ v, firstNEValue jkKey (rawPairs (getQuery url)) = none →
      firstNEValue vjkKey (rawPairs (getQuery url)) = some v →
      normalize_job_url url = canonBase ++ plusToSpace v) ∧
    (firstNEValue jkKey (rawPairs (getQuery url)) = none →
      firstNEValue vjkKey (rawPairs (getQuery url)) = none →
      normalize_job_url url = normTail url) := by
  intro url _hempty
  refine ⟨?_, ?_, ?_⟩
  · intro v hv
    apply normalize_of_jk
    rw [firstValue_query_raw jkKey url (by decide) (by decide), hv]
    rfl
  · intro v hj hv
    apply normalize_of_vjk
    · rw [firstValue_query_raw jkKey url (by decide) (by decide), hj]
      rfl
    · rw [firstValue_query_raw vjkKey url (by decide) (by decide), hv]
      rfl
  · intro hj hv
    apply normalize_of_neither
    · rw [firstValue_query_raw jkKey url (by decide) (by decide), hj]
      rfl
    · rw [firstValue_query_raw vjkKey url (by decide) (by decide), hv]
      rfl

/-- C10 counterexample: in `?jk=&vjk=z&jk=abc` the first `jk` pair is empty
and a non-empty `vjk` is present, yet the code uses the later non-empty `jk`
pair (`abc`), not the `vjk` value `z` the claim promises. -/
theorem claim_C10_counterexample :
    firstValue jkKey (rawPairs (getQuery "https://x/a?jk=&vjk=z&jk=abc".toList)) = some [] ∧
    firstNEValue vjkKey (rawPairs (getQuery "https://x/a?jk=&vjk=z&jk=abc".toList)) =
      some ['z'] ∧
    normalize_job_url "https://x/a?jk=&vjk=z&jk=abc".toList =
      "https://www.indeed.com/viewjob?jk=abc".toList ∧
    normalize_job_url "https://x/a?jk=&vjk=z&jk=abc".toList ≠
      "https://www.indeed.com/viewjob?jk=z".toList := by decide

/-- C10 witness: with `?jk=&vjk=z` the empty `jk` pair is ignored and the
`vjk` value is used. -/
theorem claim_C10_witness :
    normalize_job_url "https://x/a?jk=&vjk=z".toList = canonBase ++ plusToSpace ['z'] :=
  (claim_C10 "https://x/a?jk=&vjk=z".toList (by decide)).2.1 ['z'] (by decide) (by decide)

/-- C5: the detail extraction searches the top-level object first and then
the object under `job`, per field taking the first truthy match of its
ordered fallback keys and defaulting to the empty string; the spec's two
examples hold, and the four data fields of the returned record are never
null (a missing field degrades to the empty string, and being structure
fields they cannot be absent). -/
theorem claim_C5 :
    (∀ norm src : List Char,
      (fetch_job_details_extract
        [(jobKey, .obj [("jobTitle".toList, .str ['X']), ("company_name".toList, .str ['Y'])])]
        norm src).title = .str ['X'] ∧
      (fetch_job_details_extract
        [(jobKey, .obj [("jobTitle".toList, .str ['X']), ("company_name".toList, .str ['Y'])])]
        norm src).company = .str ['Y']) ∧
    (∀ norm src : List Char,
      (fetch_job_details_extract [] norm src).title = .str [] ∧
      (fetch_job_details_extract [] norm src).company = .str [] ∧
      (fetch_job_details_extract [] norm src).location = .str [] ∧
      (fetch_job_details_extract [] norm src).description = .str []) ∧
    (∀ (data : List (List Char × JVal)) (norm src : List Char) (v : JVal),
      dlookup data "title".toList = some v → truthyJ v = true →
      (fetch_job_details_extract data norm src).title = v) ∧
    (∀ (data : List (List Char × JVal)) (norm src : List Char) (v : JVal),
      dlookup data "company".toList = some v → truthyJ v = true →
      (fetch_job_details_extract data norm src).company = v) ∧
    (∀ (data : List (List Char × JVal)) (norm src : List Char) (v : JVal),
      dlookup data "location".toList = some v → truthyJ v = true →
      (fetch_job_details_extract data norm src).location = v) ∧
    (∀ (data : List (List Char × JVal)) (norm src : List Char) (v : JVal),
      dlookup data "description".toList = some v → truthyJ v = true →
      (fetch_job_details_extract data norm src).description = v) ∧
    (∀ (data : List (List Char × JVal)) (norm src : List Char),
      (fetch_job_details_extract data norm src).title ≠ .nullv ∧
      (fetch_job_details_extract data norm src).company ≠ .nullv ∧
      (fetch_job_details_extract data norm src).location ≠ .nullv ∧
      (fetch_job_details_extract data norm src).description ≠ .nullv) := by
  refine ⟨fun norm src => ⟨rfl, rfl⟩, fun norm src => ⟨rfl, rfl, rfl, rfl⟩,
    ?_, ?_, ?_, ?_, ?_⟩
  · intro data norm src v h ht
    simp only [fetch_job_details_extract]
    rw [pick_head h ht, pyOrJ_of_truthy _ ht, pyOrJ_of_truthy _ ht]
  · intro data norm src v h ht
    simp only [fetch_job_details_extract]
    rw [pick_head h ht, pyOrJ_of_truthy _ ht, pyOrJ_of_truthy _ ht]
  · intro data norm src v h ht
    simp only [fetch_job_details_extract]
    rw [pick_head h ht, pyOrJ_of_truthy _ ht, pyOrJ_of_truthy _ ht]
  · intro data norm src v h ht
    simp only [fetch_job_details_extract]
    rw [pick_head h ht, pyOrJ_of_truthy _ ht, pyOrJ_of_truthy _ ht]
  · intro data norm src
    exact ⟨pyOrJ_ne_null _, pyOrJ_ne_null _, pyOrJ_ne_null _, pyOrJ_ne_null _⟩

/-- C5 witness: a truthy top-level `title` wins over everything else. -/
theorem claim_C5_witness :
    (fetch_job_details_extract
      [("title".toList, JVal.str ['T']),
        (jobKey, JVal.obj [("jobTitle".toList, JVal.str ['U'])])] [] []).title =
      JVal.str ['T'] :=
  claim_C5.2.2.1
    [("title".toList, JVal.str ['T']), (jobKey, JVal.obj [("jobTitle".toList, JVal.str ['U'])])]
    [] [] (JVal.str ['T']) (by rfl) (by rfl)

/-- C6: the serialized envelope holds exactly the input records in their
original order under `data.job`, `metadata.total_jobs` equals their number,
and `metadata.search_job_title` is the search job title with `_detailed`
appended. -/
theorem claim_C6 : ∀ (α : Type) (jobs : List α) (jt loc ts : List Char),
    (save_envelope jobs jt loc ts).job = jobs ∧
    (save_envelope jobs jt loc ts).total_jobs = jobs.length ∧
    (save_envelope jobs jt loc ts).search_job_title = jt ++ "_detailed".toList :=
  fun _ _ _ _ _ => ⟨rfl, rfl, rfl⟩

/-- C7: validation returns the trimmed strings with the integer-or-None
limit, and fails exactly when a string is empty after trimming, the limit is
not convertible to an integer, or the converted limit is below 1; in
particular limit 0 and limit -1 always fail, while an absent limit is
accepted. -/
theorem claim_C7 : ∀ (jt loc : List Char) (lim : LimitArg),
    (∀ r, get_user_input jt loc lim = .ok r → r = (pyStrip jt, pyStrip loc, limitAsOption lim)) ∧
    ((∃ e, get_user_input jt loc lim = .error e) ↔
      (pyStrip jt = [] ∨ pyStrip loc = [] ∨ lim = .notIntLike ∨
        ∃ n, lim = .intLike n ∧ n < 1)) ∧
    (∃ e, get_user_input jt loc (.intLike 0) = .error e) ∧
    (∃ e, get_user_input jt loc (.intLike (-1)) = .error e) := by
  intro jt loc lim
  have hbad : ∀ m : Int, m < 1 → ∃ e, get_user_input jt loc (.intLike m) = .error e := by
    intro m hm
    by_cases h1 : pyStrip jt = []
    · exact ⟨"job_title is required and cannot be empty.".toList,
        by simp [get_user_input, h1]⟩
    · by_cases h2 : pyStrip loc = []
      · exact ⟨"location is required and cannot be empty.".toList,
          by simp [get_user_input, h1, h2]⟩
      · exact ⟨"limit must be >= 1 when provided.".toList,
          by simp [get_user_input, h1, h2, hm]⟩
  refine ⟨?_, ⟨?_, ?_⟩, hbad 0 (by norm_num), hbad (-1) (by norm_num)⟩
  · intro r hr
    by_cases h1 : pyStrip jt = []
    · simp [get_user_input, h1] at hr
    · by_cases h2 : pyStrip loc = []
      · simp [get_user_input, h1, h2] at hr
      · rcases lim with _ | n | _
        · simp [get_user_input, h1, h2] at hr
          subst hr
          simp [limitAsOption]
        · by_cases h3 : n < 1
          · simp [get_user_input, h1, h2, h3] at hr
          · simp [get_user_input, h1, h2, h3] at hr
            subst hr
            simp [limitAsOption]
        · simp [get_user_input, h1, h2] at hr
  · rintro ⟨e, he⟩
    by_cases h1 : pyStrip jt = []
    · exact Or.inl h1
    · by_cases h2 : pyStrip loc = []
      · exact Or.inr (Or.inl h2)
      · rcases lim with _ | n | _
        · simp [get_user_input, h1, h2] at he
        · by_cases h3 : n < 1
          · exact Or.inr (Or.inr (Or.inr ⟨n, rfl, h3⟩))
          · simp [get_user_input, h1, h2, h3] at he
        · exact Or.inr (Or.inr (Or.inl rfl))
  · intro h
    by_cases h1 : pyStrip jt = []
    · exact ⟨"job_title is required and cannot be empty.".toList,
        by simp [get_user_input, h1]⟩
    · by_cases h2 : pyStrip loc = []
      · exact ⟨"location is required and cannot be empty.".toList,
          by simp [get_user_input, h1, h2]⟩
      · rcases h with h | h | h | ⟨n, hn, hlt⟩
        · exact absurd h h1
        · exact absurd h h2
        · subst h
          exact ⟨"limit must be an integer (or None).".toList,
            by simp [get_user_input, h1, h2]⟩
        · subst hn
          exact hbad n hlt

/-- C7 witness: valid inputs are returned trimmed with the integer limit, and
a whitespace-only job title is rejected. -/
theorem claim_C7_witness :
    ("ml".toList, "dhaka".toList, some (5 : Int)) =
      (pyStrip " ml ".toList, pyStrip " dhaka ".toList, limitAsOption (.intLike 5)) ∧
    ∃ e, get_user_input "   ".toList "Dhaka".toList LimitArg.noLimit = .error e :=
  ⟨(claim_C7 " ml ".toList " dhaka ".toList (.intLike 5)).1
      ("ml".toList, "dhaka".toList, some 5) (by rfl),
   (claim_C7 "   ".toList "Dhaka".toList .noLimit).2.1.mpr (Or.inl (by decide))⟩

/-- C9 (amended): the output path is
`data/indeed_jobs_<title>_<location>_<timestamp>.json` where the job title
has spaces and path separators replaced by underscores (commas are kept) and
the location additionally has commas removed; the timestamp enters the model
pre-formatted.  (The original claim said path separators and commas are
stripped from both; the code replaces `/` with `_` and strips commas only
from the location.) -/
theorem claim_C9 : ∀ (jt loc ts : List Char),
    save_filename jt loc ts =
      "data/indeed_jobs_".toList ++
        (jt.map fun c => if c = ' ' ∨ c = '/' then '_' else c) ++ ['_'] ++
        ((loc.filter fun c => ¬ c = ',').map fun c => if c = ' ' ∨ c = '/' then '_' else c) ++
        ['_'] ++ ts ++ ".json".toList := by
  intro jt loc ts
  rw [save_filename, job_title_clean_eq, location_clean_eq]

/-- C9 counterexample: for the job title `a/b` the code produces `a_b` in the
filename while the spec's sanitization (path separators stripped) produces
`ab`, so the filenames differ. -/
theorem claim_C9_counterexample :
    save_filename "a/b".toList "c".toList "20260101_000000".toList ≠
      spec_filename "a/b".toList "c".toList "20260101_000000".toList := by decide
